import Mathlib

/-!
Verification of the polymarket recorder's data layer against its design
document.  The definitions below are a shallow embedding of the Python
sources (`src/data/clients.py`, `src/data_recorder.py`): prices and
timestamps are rationals, Python `None` is `Option.none`, dictionaries are
association lists with first-match lookup, and Python's `round(x, 4)`
(round half to even) is `pyround4`.
-/

namespace PolyRec

/-- Round half to even on rationals, as Python's builtin `round` does. -/
def round_half_even (q : ℚ) : ℤ :=
  if Int.fract q = 1 / 2 then (if 2 ∣ ⌊q⌋ then ⌊q⌋ else ⌊q⌋ + 1) else round q

/-- Python's `round(x, 4)`: round half to even at four decimal places. -/
def pyround4 (q : ℚ) : ℚ :=
  (round_half_even (q * 10000) : ℚ) / 10000

/-- Python's `int(x)` on a float: truncation toward zero. -/
def pyint (q : ℚ) : ℤ :=
  if 0 ≤ q then ⌊q⌋ else -⌊-q⌋

/-- A `{bid, ask, mid}` price triple as emitted by `CLOBClient._send_update`. -/
structure SideQuotes where
  bid : ℚ
  ask : ℚ
  mid : ℚ
deriving DecidableEq

/-- One entry of `CLOBClient.markets`: the token pair plus the stored
per-side best bid/ask (Python `None` = `none`). -/
structure MarketEntry where
  tokens : List String
  up_bid : Option ℚ
  up_ask : Option ℚ
  down_bid : Option ℚ
  down_ask : Option ℚ
deriving DecidableEq

/-- `CLOBClient._send_update`, lines 325-370 of `src/data/clients.py`.
Returns the callback payload (`none` when `on_price_update` is not called,
otherwise the `(up_prices, down_prices)` argument pair, each itself
nullable as in the Python signature) together with the updated stored
market entry (the fallback writes the synthesized bid/ask back). -/
def send_update (m : MarketEntry) : Option (Option SideQuotes × Option SideQuotes) × MarketEntry :=
  let up0 : Option SideQuotes :=
    match m.up_bid, m.up_ask with
    | some b, some a => some ⟨pyround4 b, pyround4 a, pyround4 ((b + a) / 2)⟩
    | _, _ => none
  let down0 : Option SideQuotes :=
    match m.down_bid, m.down_ask with
    | some b, some a => some ⟨pyround4 b, pyround4 a, pyround4 ((b + a) / 2)⟩
    | _, _ => none
  match up0, down0 with
  | some u, none =>
    -- FALLBACK: DOWN missing, synthesize DOWN = 1 - UP (bid/ask inverted)
    let db := pyround4 (1 - m.up_ask.getD 0)
    let da := pyround4 (1 - m.up_bid.getD 0)
    (some (some u, some ⟨db, da, pyround4 (1 - u.mid)⟩),
      { m with down_bid := some db, down_ask := some da })
  | none, some d =>
    -- FALLBACK: UP missing, synthesize UP = 1 - DOWN
    let ub := pyround4 (1 - m.down_ask.getD 0)
    let ua := pyround4 (1 - m.down_bid.getD 0)
    (some (some ⟨ub, ua, pyround4 (1 - d.mid)⟩, some d),
      { m with up_bid := some ub, up_ask := some ua })
  | some u, some d => (some (some u, some d), m)
  | none, none => (none, m)

/-! ### Python dictionaries as association lists

`CLOBClient.markets` and `CLOBClient.token_to_slug` are Python dicts;
we embed them as association lists with first-match lookup, in-place
replacement on insert of an existing key, and deletion of the (unique)
matching entry. -/

/-- `d.get(k)` / `d[k]`. -/
def dlookup {α : Type} (k : String) : List (String × α) → Option α
  | [] => none
  | p :: rest => if p.1 = k then some p.2 else dlookup k rest

/-- `d[k] = v`: replace the entry for `k` in place, else append it. -/
def dinsert {α : Type} (k : String) (v : α) : List (String × α) → List (String × α)
  | [] => [(k, v)]
  | p :: rest => if p.1 = k then (k, v) :: rest else p :: dinsert k v rest

/-- `del d[k]` (no-op when `k` is absent, matching `if k in d: del d[k]`). -/
def derase {α : Type} (k : String) : List (String × α) → List (String × α)
  | [] => []
  | p :: rest => if p.1 = k then rest else p :: derase k rest

/-- The key set of a dictionary. -/
def keys {α : Type} (l : List (String × α)) : List String := l.map (·.1)

/-- The mutable registry state of `CLOBClient`: `markets`,
`token_to_slug` and the `need_resubscribe` flag. -/
structure ClobState where
  markets : List (String × MarketEntry)
  token_to_slug : List (String × String)
  need_resubscribe : Bool
deriving DecidableEq

/-- A freshly added market entry: tokens plus all four prices `None`. -/
def fresh_entry (token_ids : List String) : MarketEntry :=
  ⟨token_ids, none, none, none, none⟩

/-- The insert/replace path of `CLOBClient.set_market` (lines 122-133). -/
def set_market_add (token_ids : List String) (market_slug : String) (s : ClobState) : ClobState :=
  { markets := dinsert market_slug (fresh_entry token_ids) s.markets,
    token_to_slug := token_ids.foldl (fun acc tid => dinsert tid market_slug acc) s.token_to_slug,
    need_resubscribe := true }

/-- `CLOBClient.set_market`, lines 116-133 of `src/data/clients.py`. -/
def set_market (token_ids : List String) (market_slug : String) (s : ClobState) : ClobState :=
  match dlookup market_slug s.markets with
  | some entry =>
    if entry.tokens = token_ids then s else set_market_add token_ids market_slug s
  | none => set_market_add token_ids market_slug s

/-- `CLOBClient.remove_market`, lines 135-144 of `src/data/clients.py`. -/
def remove_market (market_slug : String) (s : ClobState) : ClobState :=
  match dlookup market_slug s.markets with
  | some entry =>
    { markets := derase market_slug s.markets,
      token_to_slug := entry.tokens.foldl (fun acc tid => derase tid acc) s.token_to_slug,
      need_resubscribe := true }
  | none => s

/-- A call to the subscription registry. -/
inductive RegistryOp
  | set (token_ids : List String) (market_slug : String)
  | remove (market_slug : String)

/-- Apply one registry call. -/
def apply_op (s : ClobState) : RegistryOp → ClobState
  | .set t sl => set_market t sl s
  | .remove sl => remove_market sl s

/-- Apply a sequence of registry calls. -/
def apply_ops (s : ClobState) (ops : List RegistryOp) : ClobState :=
  ops.foldl apply_op s

/-- A `set_market` call is benign when it either repeats a registered
slug's exact token list (the documented no-op) or registers a fresh slug
whose tokens are not yet in the reverse index; `remove_market` is always
benign. -/
def GoodOp (s : ClobState) : RegistryOp → Prop
  | .set t sl =>
      (dlookup sl s.markets = none ∧ ∀ tid ∈ t, dlookup tid s.token_to_slug = none)
      ∨ (∃ e, dlookup sl s.markets = some e ∧ e.tokens = t)
  | .remove _ => True

/-- Every call of the sequence is benign in the state it runs in. -/
def GoodSeq : ClobState → List RegistryOp → Prop
  | _, [] => True
  | s, op :: rest => GoodOp s op ∧ GoodSeq (apply_op s op) rest

/-- The registry's initial state. -/
def init_state : ClobState := ⟨[], [], false⟩

/-- The reverse-index invariant of claim C9: `token_to_slug` maps `t` to
`sl` exactly when `sl` is a registered market whose current token list
contains `t`. -/
def Inv (s : ClobState) : Prop :=
  ∀ t sl, dlookup t s.token_to_slug = some sl ↔
    ∃ e, dlookup sl s.markets = some e ∧ t ∈ e.tokens

/-- Auxiliary inductive invariant: key uniqueness of both dictionaries
plus the reverse-index invariant. -/
def InvFull (s : ClobState) : Prop :=
  (keys s.markets).Nodup ∧ (keys s.token_to_slug).Nodup ∧ Inv s

/-! ### Event parsing (`CLOBClient._parse_market_data`, lines 263-323) -/

/-- The side of the tracked binary market that an inbound event's asset
id resolved to (`tokens[0]` = UP, `tokens[1]` = DOWN). -/
inductive Side
  | up
  | down
deriving DecidableEq

/-- The opposite side. -/
def Side.other : Side → Side
  | .up => .down
  | .down => .up

/-- The price-bearing fields of one inbound raw market event.  For
`best_bid` / `best_ask` the outer `Option` is key presence
(`'best_bid' in data`) and the inner `Option` is Python truthiness of
the raw value together with its `float(...)` conversion (`some q` for a
truthy value converting to `q`, e.g. `some 0` for the string `"0"`;
`none` for a falsy value such as `""`).  `price` and
`last_trade_price` carry the parsed `float(...)` value when the key is
present.  `bids` / `asks` carry the parsed price of each book level, in
the order received, when the key is present. -/
structure RawEvent where
  best_bid : Option (Option ℚ)
  best_ask : Option (Option ℚ)
  price : Option ℚ
  last_trade_price : Option ℚ
  bids : Option (List ℚ)
  asks : Option (List ℚ)
deriving DecidableEq

/-- Merge an optional inbound value into a stored field
(`if best_bid: m_data['up_bid'] = float(best_bid)`). -/
def merge_field (new old : Option ℚ) : Option ℚ :=
  match new with
  | some v => some v
  | none => old

/-- Write the present inbound values into one side's stored bid/ask. -/
def set_side (side : Side) (b a : Option ℚ) (m : MarketEntry) : MarketEntry :=
  match side with
  | .up => { m with up_bid := merge_field b m.up_bid, up_ask := merge_field a m.up_ask }
  | .down => { m with down_bid := merge_field b m.down_bid, down_ask := merge_field a m.down_ask }

/-- Python float truthiness of an optional book level price
(`0.0` is falsy). -/
def truthy_float (x : Option ℚ) : Option ℚ :=
  match x with
  | some q => if q = 0 then none else some q
  | none => none

/-- Event shape (1): `'best_bid' in data or 'best_ask' in data`. -/
def shape_best_bid_ask (e : RawEvent) : Bool :=
  e.best_bid.isSome || e.best_ask.isSome

/-- Event shape (4): `'bids' in data and 'asks' in data`. -/
def shape_orderbook (e : RawEvent) : Bool :=
  e.bids.isSome && e.asks.isSome

/-- The `if`/`elif` chain of priorities 1-3 of
`CLOBClient._parse_market_data` (lines 266-303): the entry after those
branches plus the `price_updated` flag they set. -/
def parse_step1 (side : Side) (e : RawEvent) (m : MarketEntry) : MarketEntry × Bool :=
  if e.best_bid.isSome || e.best_ask.isSome then
    -- PRIORITY 1: best_bid_ask event
    if (e.best_bid.join).isSome || (e.best_ask.join).isSome then
      (set_side side e.best_bid.join e.best_ask.join m, true)
    else (m, false)
  else if e.price.isSome then
    -- PRIORITY 2: price_change event, zero-spread
    if 0 < e.price.getD 0 then
      (set_side side (some (e.price.getD 0)) (some (e.price.getD 0)) m, true)
    else (m, false)
  else if e.last_trade_price.isSome then
    -- PRIORITY 3: last trade, zero-spread
    if 0 < e.last_trade_price.getD 0 then
      (set_side side (some (e.last_trade_price.getD 0)) (some (e.last_trade_price.getD 0)) m,
        true)
    else (m, false)
  else (m, false)

/-- The price-parsing part of `CLOBClient._parse_market_data`
(lines 263-323), for an event whose asset id resolved to `side` of the
tracked market entry `m`: priorities 1-3, then PRIORITY 4 (full
orderbook) only if nothing above updated; returns the updated entry
plus the `price_updated` flag deciding whether `_send_update` runs. -/
def parse_market_data (side : Side) (e : RawEvent) (m : MarketEntry) : MarketEntry × Bool :=
  if !(parse_step1 side e m).2 && (e.bids.isSome && e.asks.isSome) then
    if (truthy_float (e.bids.getD []).getLast?).isSome
        || (truthy_float (e.asks.getD []).getLast?).isSome then
      (set_side side (truthy_float (e.bids.getD []).getLast?)
        (truthy_float (e.asks.getD []).getLast?) (parse_step1 side e m).1, true)
    else parse_step1 side e m
  else parse_step1 side e m

/-- The stored bid of one side. -/
def bid_of (side : Side) (m : MarketEntry) : Option ℚ :=
  match side with
  | .up => m.up_bid
  | .down => m.down_bid

/-- The stored ask of one side. -/
def ask_of (side : Side) (m : MarketEntry) : Option ℚ :=
  match side with
  | .up => m.up_ask
  | .down => m.down_ask

/-- Apply a sequence of inbound events for one side to the stored entry. -/
def apply_events (side : Side) (es : List RawEvent) (m : MarketEntry) : MarketEntry :=
  es.foldl (fun acc e => (parse_market_data side e acc).1) m

/-- Last-write-wins per field: the last of the carried updates, else the
old stored value. -/
def last_write (updates : List ℚ) (old : Option ℚ) : Option ℚ :=
  match updates.getLast? with
  | some v => some v
  | none => old

/-! ### Latency estimation (`DataRecorder.on_rtds_update`, lines 157-183) -/

/-- `diff < min_diff`, with `min_diff = none` standing for the initial
`float('inf')`. -/
def improves_bool (d : ℚ) (min_diff : Option ℚ) : Bool :=
  match min_diff with
  | none => true
  | some md => decide (d < md)

/-- The backward scan over `reversed(self.bnc_history)`
(lines 169-180): stop at the first tick older than the 10-second
window, track the tick minimizing `abs(b_price - oracle_price)`, and
stop early at the first tick whose difference is below 0.1. -/
def scan_ticks (now oracle : ℚ) : List (ℚ × ℚ) → Option ℚ → Option ℚ → Option ℚ
  | [], best, _ => best
  | (b_ts, b_price) :: rest, best, min_diff =>
    if 10 < now - b_ts then best
    else if |b_price - oracle| < 1/10 then
      (if improves_bool |b_price - oracle| min_diff then some b_ts else best)
    else
      scan_ticks now oracle rest
        (if improves_bool |b_price - oracle| min_diff then some b_ts else best)
        (if improves_bool |b_price - oracle| min_diff then some |b_price - oracle| else min_diff)

/-- The lag-estimation part of `DataRecorder.on_rtds_update`
(lines 162-183): scan the spot history from most recent backward and,
if a (truthy, i.e. nonzero) match timestamp was found, set
`current_lag_ms = int((now - best_match_ts) * 1000)`; otherwise keep
the previous estimate. -/
def on_rtds_update_lag (now oracle : ℚ) (bnc_history : List (ℚ × ℚ)) (prev_lag : ℤ) : ℤ :=
  if bnc_history = [] then prev_lag
  else
    match scan_ticks now oracle bnc_history.reverse none none with
    | some b_ts => if b_ts = 0 then prev_lag else pyint ((now - b_ts) * 1000)
    | none => prev_lag

/-! ### Market discovery (`MarketDiscovery`, lines 539-678) -/

/-- One event summary from the schedule endpoint: an identifier plus its
parsed `endDate` (`none` for a missing or empty date string, which the
loop skips). -/
structure GEvent where
  eid : ℕ
  endDate : Option ℚ
deriving DecidableEq

/-- `MIN_BUFFER_SECONDS` (clients.py line 573). -/
def MIN_BUFFER_SECONDS : ℚ := 10

/-- The `upcoming_markets` list built by
`MarketDiscovery.get_current_market` (lines 560-577): events with a
parsable end date strictly later than `now + MIN_BUFFER_SECONDS`. -/
def upcoming_markets (now : ℚ) (events : List GEvent) : List (ℚ × GEvent) :=
  (events.filterMap (fun ev => ev.endDate.map (fun t => (t, ev)))).filter
    (fun p => decide (now + MIN_BUFFER_SECONDS < p.1))

/-- The selection step of `MarketDiscovery.get_current_market`
(lines 579-595): sort the candidates by end time and take the first,
i.e. a first-minimum `argmin` on the end time. -/
def select_current_market (now : ℚ) (events : List GEvent) : Option (ℚ × GEvent) :=
  (upcoming_markets now events).argmin (fun p => p.1)

/-- Python's `str.lower()`: per-character lowercasing.  (Semantically
this is Lean's `String.toLower`, but defined by structural recursion
over the character list so that it evaluates in the kernel.) -/
def py_lower (s : String) : String := ⟨s.data.map Char.toLower⟩

/-- The lower-cased negative-framed outcome labels (clients.py line 630). -/
def negative_labels : List String := ["no", "below", "down"]

/-- The outcome-order canonicalization shared by
`MarketDiscovery.get_current_market` (lines 624-632) and
`MarketDiscovery5m.get_current_market` (lines 732-737): with at least two
outcome labels and at least two tokens, a negative-framed first label
(compared lower-cased) replaces the token list by the reversed leading
pair; otherwise the list is left as discovered. -/
def canonicalize_tokens {α : Type} (outcomes : List String) (clob_tokens : List α) : List α :=
  match outcomes, clob_tokens with
  | o :: _ :: _, t0 :: t1 :: _ =>
    if py_lower o ∈ negative_labels then [t1, t0] else clob_tokens
  | _, _ => clob_tokens

/-! ### Snapshot sampling (`DataRecorder`, src/data_recorder.py) -/

/-- The six quote fields of a market snapshot
(`DataRecorder.record_snapshot`, lines 297-317). -/
structure SnapshotQuotes where
  up_bid : ℚ
  up_ask : ℚ
  up_mid : ℚ
  down_bid : ℚ
  down_ask : ℚ
  down_mid : ℚ
deriving DecidableEq

/-- The recorder state read by `record_snapshot`: the tracked market's
slug (if any) and the last combined quote update's two sides. -/
structure RecorderState where
  current_slug : Option String
  up_prices : Option SideQuotes
  down_prices : Option SideQuotes
deriving DecidableEq

/-- `DataRecorder.on_clob_update` (lines 147-155), for one duration
class: store the callback's two sides when the slug matches the tracked
market. -/
def on_clob_update (market_slug : String) (up down : Option SideQuotes)
    (s : RecorderState) : RecorderState :=
  if s.current_slug = some market_slug then
    { s with up_prices := up, down_prices := down }
  else s

/-- The quote fields of `DataRecorder.record_snapshot` (lines 297-317):
a snapshot is assembled whenever a market is tracked, each field taken
from the stored side when present and `0` otherwise
(`self.up_prices.get("bid", 0) if self.up_prices else 0`). -/
def record_snapshot (s : RecorderState) : Option SnapshotQuotes :=
  match s.current_slug with
  | some _ => some
      ⟨(match s.up_prices with | some p => p.bid | none => 0),
       (match s.up_prices with | some p => p.ask | none => 0),
       (match s.up_prices with | some p => p.mid | none => 0),
       (match s.down_prices with | some p => p.bid | none => 0),
       (match s.down_prices with | some p => p.ask | none => 0),
       (match s.down_prices with | some p => p.mid | none => 0)⟩
  | none => none

end PolyRec

namespace PolyRec

theorem round_half_even_intCast (k : ℤ) : round_half_even (k : ℚ) = k := by
  unfold round_half_even
  rw [Int.fract_intCast]
  simp

theorem pyround4_div_10000 (k : ℤ) : pyround4 ((k : ℚ) / 10000) = (k : ℚ) / 10000 := by
  unfold pyround4
  rw [div_mul_cancel₀, round_half_even_intCast]
  norm_num

/-- `pyround4` lands in the four-decimal grid. -/
theorem pyround4_eq_div (q : ℚ) : pyround4 q = (round_half_even (q * 10000) : ℚ) / 10000 := rfl

theorem pyround4_one_sub_pyround4 (q : ℚ) :
    pyround4 (1 - pyround4 q) = 1 - pyround4 q := by
  rw [pyround4_eq_div q]
  have h : (1 : ℚ) - (round_half_even (q * 10000) : ℚ) / 10000
      = ((10000 - round_half_even (q * 10000) : ℤ) : ℚ) / 10000 := by
    push_cast
    ring
  rw [h, pyround4_div_10000]

/-- C1: when the Primary (UP) side has a stored bid and ask but the
Complementary (DOWN) side is missing one of them, `_send_update`
synthesizes DOWN as bid = 1 − up_ask, ask = 1 − up_bid,
mid = 1 − up_mid, each rounded to 4 decimals, and writes the synthesized
bid/ask back into the stored DOWN quote; symmetrically with a missing UP
side; in either fallback case the two emitted mids sum to exactly 1. -/
theorem send_update_complementary_fallback (m : MarketEntry) (b a : ℚ) :
    (m.up_bid = some b → m.up_ask = some a →
      (m.down_bid = none ∨ m.down_ask = none) →
      send_update m =
        (some (some ⟨pyround4 b, pyround4 a, pyround4 ((b + a) / 2)⟩,
               some ⟨pyround4 (1 - a), pyround4 (1 - b),
                     1 - pyround4 ((b + a) / 2)⟩),
         { m with down_bid := some (pyround4 (1 - a)),
                  down_ask := some (pyround4 (1 - b)) }) ∧
      pyround4 ((b + a) / 2) + (1 - pyround4 ((b + a) / 2)) = 1) ∧
    (m.down_bid = some b → m.down_ask = some a →
      (m.up_bid = none ∨ m.up_ask = none) →
      send_update m =
        (some (some ⟨pyround4 (1 - a), pyround4 (1 - b),
                     1 - pyround4 ((b + a) / 2)⟩,
               some ⟨pyround4 b, pyround4 a, pyround4 ((b + a) / 2)⟩),
         { m with up_bid := some (pyround4 (1 - a)),
                  up_ask := some (pyround4 (1 - b)) }) ∧
      (1 - pyround4 ((b + a) / 2)) + pyround4 ((b + a) / 2) = 1) := by
  constructor
  · intro hb ha hmiss
    refine ⟨?_, by ring⟩
    have hdown : (match m.down_bid, m.down_ask with
        | some b, some a => some (⟨pyround4 b, pyround4 a, pyround4 ((b + a) / 2)⟩ : SideQuotes)
        | _, _ => none) = none := by
      rcases hmiss with h | h <;> rw [h] <;> cases m.down_bid <;> cases m.down_ask <;> rfl
    unfold send_update
    rw [hb, ha, hdown]
    simp only [Option.getD_some]
    rw [pyround4_one_sub_pyround4]
  · intro hb ha hmiss
    refine ⟨?_, by ring⟩
    have hup : (match m.up_bid, m.up_ask with
        | some b, some a => some (⟨pyround4 b, pyround4 a, pyround4 ((b + a) / 2)⟩ : SideQuotes)
        | _, _ => none) = none := by
      rcases hmiss with h | h <;> rw [h] <;> cases m.up_bid <;> cases m.up_ask <;> rfl
    unfold send_update
    rw [hb, ha, hup]
    simp only [Option.getD_some]
    rw [pyround4_one_sub_pyround4]

/-- Witness for C1: Primary {bid=0.40, ask=0.42} yields Complementary
{bid=0.58, ask=0.60, mid=0.59}, the synthesized bid/ask are persisted,
and 0.41 + 0.59 = 1. -/
theorem send_update_complementary_fallback_witness :
    send_update ⟨["X", "Y"], some (2/5), some (21/50), none, none⟩ =
      (some (some ⟨2/5, 21/50, 41/100⟩, some ⟨29/50, 3/5, 59/100⟩),
       ⟨["X", "Y"], some (2/5), some (21/50), some (29/50), some (3/5)⟩) ∧
    (41 : ℚ)/100 + 59/100 = 1 := by
  have h := (send_update_complementary_fallback
    ⟨["X", "Y"], some (2/5), some (21/50), none, none⟩ (2/5) (21/50)).1
    rfl rfl (Or.inl rfl)
  have e := h.1
  constructor
  · rw [e]
    norm_num [pyround4, round_half_even, Int.fract]
  · norm_num

/-- C2: the combined-update callback is invoked iff at least one side has
both a non-null bid and a non-null ask, and whenever it is invoked both
the UP and the DOWN price triples passed to it are non-null. -/
theorem send_update_emission (m : MarketEntry) :
    ((send_update m).1.isSome = true ↔
      ((m.up_bid.isSome = true ∧ m.up_ask.isSome = true) ∨
       (m.down_bid.isSome = true ∧ m.down_ask.isSome = true))) ∧
    (∀ u d, (send_update m).1 = some (u, d) → u.isSome = true ∧ d.isSome = true) := by
  obtain ⟨tok, ub, ua, db, da⟩ := m
  constructor
  · cases ub <;> cases ua <;> cases db <;> cases da <;> simp [send_update]
  · intro u d h
    cases ub <;> cases ua <;> cases db <;> cases da <;>
      simp [send_update] at h <;> simp [h.1.symm, h.2.symm]

/-- Witness for C2 at a concrete one-sided entry: the callback fires and
both passed triples are non-null. -/
theorem send_update_emission_witness :
    ((send_update ⟨[], some (1/2), some (3/5), none, none⟩).1.isSome = true) ∧
    ((some (⟨1/2, 3/5, 11/20⟩ : SideQuotes)).isSome = true ∧
     (some (⟨2/5, 1/2, 9/20⟩ : SideQuotes)).isSome = true) := by
  have hev : (send_update ⟨[], some (1/2), some (3/5), none, none⟩).1
      = some (some ⟨1/2, 3/5, 11/20⟩, some ⟨2/5, 1/2, 9/20⟩) := by
    norm_num [send_update, pyround4, round_half_even, Int.fract]
  exact ⟨(send_update_emission ⟨[], some (1/2), some (3/5), none, none⟩).1.mpr
      (Or.inl ⟨rfl, rfl⟩),
    (send_update_emission ⟨[], some (1/2), some (3/5), none, none⟩).2
      (some ⟨1/2, 3/5, 11/20⟩) (some ⟨2/5, 1/2, 9/20⟩) hev⟩

/-! ### Dictionary lemmas -/

theorem dlookup_dinsert {α : Type} (k x : String) (v : α) (l : List (String × α)) :
    dlookup x (dinsert k v l) = if x = k then some v else dlookup x l := by
  induction l with
  | nil =>
    by_cases h : x = k <;> simp [dinsert, dlookup, h, Ne.symm]
  | cons p rest ih =>
    by_cases hpk : p.1 = k
    · by_cases hxk : x = k
      · simp [dinsert, dlookup, hpk, hxk]
      · have hpx : ¬ p.1 = x := by rw [hpk]; exact fun h => hxk h.symm
        simp [dinsert, dlookup, hpk, hxk, hpx, Ne.symm hxk]
    · by_cases hpx : p.1 = x
      · have hxk : ¬ x = k := by rw [← hpx]; exact hpk
        simp [dinsert, dlookup, hpk, hpx, hxk]
      · simp [dinsert, dlookup, hpk, hpx, ih]

theorem dlookup_eq_none {α : Type} (x : String) (l : List (String × α)) :
    dlookup x l = none ↔ x ∉ keys l := by
  induction l with
  | nil => simp [dlookup, keys]
  | cons p rest ih =>
    simp only [dlookup, keys, List.map_cons, List.mem_cons]
    by_cases hpx : p.1 = x
    · simp [hpx]
    · simp only [if_neg hpx]
      rw [ih]
      constructor
      · rintro h (h1 | h1)
        · exact hpx h1.symm
        · exact h h1
      · intro h h1
        exact h (Or.inr h1)

theorem keys_cons {α : Type} (p : String × α) (l : List (String × α)) :
    keys (p :: l) = p.1 :: keys l := rfl

theorem keys_dinsert {α : Type} (k : String) (v : α) (l : List (String × α)) :
    keys (dinsert k v l) = if k ∈ keys l then keys l else keys l ++ [k] := by
  induction l with
  | nil => simp [dinsert, keys]
  | cons p rest ih =>
    by_cases hpk : p.1 = k
    · simp only [dinsert, if_pos hpk, keys_cons]
      rw [if_pos (show k ∈ p.1 :: keys rest by rw [← hpk]; exact List.mem_cons_self _ _)]
      rw [hpk]
    · have hkp : k ≠ p.1 := fun h => hpk h.symm
      simp only [dinsert, if_neg hpk, keys_cons, ih]
      by_cases hk : k ∈ keys rest
      · rw [if_pos hk, if_pos (List.mem_cons_of_mem _ hk)]
      · rw [if_neg hk, if_neg (by
          rw [List.mem_cons]
          rintro (h | h)
          · exact hkp h
          · exact hk h)]
        rw [List.cons_append]

theorem mem_keys_dinsert {α : Type} (k x : String) (v : α) (l : List (String × α)) :
    x ∈ keys (dinsert k v l) ↔ x = k ∨ x ∈ keys l := by
  rw [keys_dinsert]
  by_cases hk : k ∈ keys l
  · rw [if_pos hk]
    constructor
    · exact Or.inr
    · rintro (h | h)
      · rw [h]; exact hk
      · exact h
  · rw [if_neg hk]
    simp only [List.mem_append, List.mem_singleton]
    tauto

theorem keys_dinsert_nodup {α : Type} (k : String) (v : α) (l : List (String × α))
    (h : (keys l).Nodup) : (keys (dinsert k v l)).Nodup := by
  rw [keys_dinsert]
  by_cases hk : k ∈ keys l
  · rw [if_pos hk]; exact h
  · rw [if_neg hk]
    rw [List.nodup_append]
    refine ⟨h, List.nodup_singleton k, ?_⟩
    intro a ha hak
    rw [List.mem_singleton] at hak
    rw [hak] at ha
    exact hk ha

theorem derase_sublist {α : Type} (k : String) (l : List (String × α)) :
    (derase k l).Sublist l := by
  induction l with
  | nil => simp [derase]
  | cons p rest ih =>
    by_cases hpk : p.1 = k
    · simp only [derase, hpk, if_pos rfl]
      exact (List.sublist_cons_self p rest)
    · simp only [derase, hpk, if_neg hpk]
      exact ih.cons₂ p

theorem keys_derase_nodup {α : Type} (k : String) (l : List (String × α))
    (h : (keys l).Nodup) : (keys (derase k l)).Nodup := by
  have hs : (keys (derase k l)).Sublist (keys l) := by
    simp only [keys]
    exact (derase_sublist k l).map _
  exact List.Nodup.sublist hs h

theorem dlookup_derase {α : Type} (k x : String) (l : List (String × α))
    (h : (keys l).Nodup) :
    dlookup x (derase k l) = if x = k then none else dlookup x l := by
  induction l with
  | nil => simp [derase, dlookup]
  | cons p rest ih =>
    rw [keys_cons, List.nodup_cons] at h
    by_cases hpk : p.1 = k
    · by_cases hxk : x = k
      · simp only [derase, if_pos hpk, if_pos hxk]
        rw [dlookup_eq_none]
        rw [hxk, ← hpk]
        exact h.1
      · have hpx : ¬ p.1 = x := by rw [hpk]; exact fun h' => hxk h'.symm
        simp only [derase, if_pos hpk, if_neg hxk, dlookup, if_neg hpx]
    · by_cases hpx : p.1 = x
      · have hxk : ¬ x = k := by rw [← hpx]; exact hpk
        simp only [derase, if_neg hpk, dlookup, if_pos hpx, if_neg hxk]
      · simp only [derase, if_neg hpk, dlookup, if_neg hpx, ih h.2]

theorem dlookup_foldl_dinsert (sl : String) (tokens : List String) (x : String)
    (tts : List (String × String)) :
    dlookup x (tokens.foldl (fun acc tid => dinsert tid sl acc) tts)
      = if x ∈ tokens then some sl else dlookup x tts := by
  induction tokens generalizing tts with
  | nil => simp
  | cons t ts ih =>
    simp only [List.foldl_cons]
    rw [ih, dlookup_dinsert]
    by_cases h1 : x ∈ ts <;> by_cases h2 : x = t <;>
      simp [h1, h2, List.mem_cons]

theorem keys_foldl_dinsert_nodup (sl : String) (tokens : List String)
    (tts : List (String × String)) (h : (keys tts).Nodup) :
    (keys (tokens.foldl (fun acc tid => dinsert tid sl acc) tts)).Nodup := by
  induction tokens generalizing tts with
  | nil => simpa
  | cons t ts ih =>
    simp only [List.foldl_cons]
    exact ih _ (keys_dinsert_nodup t sl tts h)

theorem dlookup_foldl_derase (tokens : List String) (x : String)
    (tts : List (String × String)) (h : (keys tts).Nodup) :
    dlookup x (tokens.foldl (fun acc tid => derase tid acc) tts)
      = if x ∈ tokens then none else dlookup x tts := by
  induction tokens generalizing tts with
  | nil => simp
  | cons t ts ih =>
    simp only [List.foldl_cons]
    rw [ih _ (keys_derase_nodup t tts h), dlookup_derase t x tts h]
    by_cases h1 : x ∈ ts <;> by_cases h2 : x = t <;>
      simp [h1, h2, List.mem_cons]

theorem keys_foldl_derase_nodup (tokens : List String)
    (tts : List (String × String)) (h : (keys tts).Nodup) :
    (keys (tokens.foldl (fun acc tid => derase tid acc) tts)).Nodup := by
  induction tokens generalizing tts with
  | nil => simpa
  | cons t ts ih =>
    simp only [List.foldl_cons]
    exact ih _ (keys_derase_nodup t tts h)

/-! ### Registry theorems -/

theorem set_market_eq_noop (t : List String) (sl : String) (s : ClobState)
    (e : MarketEntry) (h : dlookup sl s.markets = some e) (het : e.tokens = t) :
    set_market t sl s = s := by
  unfold set_market
  rw [h]
  show (if e.tokens = t then s else set_market_add t sl s) = s
  exact if_pos het

theorem set_market_eq_add_of_none (t : List String) (sl : String) (s : ClobState)
    (h : dlookup sl s.markets = none) :
    set_market t sl s = set_market_add t sl s := by
  unfold set_market
  rw [h]

theorem set_market_eq_add_of_ne (t : List String) (sl : String) (s : ClobState)
    (e : MarketEntry) (h : dlookup sl s.markets = some e) (het : ¬ e.tokens = t) :
    set_market t sl s = set_market_add t sl s := by
  unfold set_market
  rw [h]
  show (if e.tokens = t then s else set_market_add t sl s) = set_market_add t sl s
  exact if_neg het

theorem dlookup_set_market_add (t : List String) (sl : String) (s : ClobState) :
    dlookup sl (set_market_add t sl s).markets = some (fresh_entry t) := by
  simp [set_market_add, dlookup_dinsert]

theorem set_market_lookup (t : List String) (sl : String) (s : ClobState) :
    ∃ e, dlookup sl (set_market t sl s).markets = some e ∧ e.tokens = t := by
  cases h : dlookup sl s.markets with
  | none =>
    rw [set_market_eq_add_of_none t sl s h]
    exact ⟨fresh_entry t, dlookup_set_market_add t sl s, rfl⟩
  | some e =>
    by_cases he : e.tokens = t
    · rw [set_market_eq_noop t sl s e h he]
      exact ⟨e, h, he⟩
    · rw [set_market_eq_add_of_ne t sl s e h he]
      exact ⟨fresh_entry t, dlookup_set_market_add t sl s, rfl⟩

/-- C8: registering a market is idempotent — a second `set_market` call
with the same slug and token list leaves the whole registry state
(including the `need_resubscribe` flag) exactly as the first call left
it, so two identical calls produce one resubscribe trigger, not two;
and a call with the same slug but a different token list replaces the
entry with a fresh one and raises the flag again (even after the owner
consumed the first trigger). -/
theorem set_market_idempotent :
    (∀ t sl s, set_market t sl (set_market t sl s) = set_market t sl s) ∧
    (∀ t t' sl s, t ≠ t' →
      (set_market t' sl { set_market t sl s with need_resubscribe := false }).need_resubscribe
        = true ∧
      dlookup sl (set_market t' sl
          { set_market t sl s with need_resubscribe := false }).markets
        = some (fresh_entry t')) := by
  constructor
  · intro t sl s
    obtain ⟨e, he, het⟩ := set_market_lookup t sl s
    exact set_market_eq_noop t sl (set_market t sl s) e he het
  · intro t t' sl s hne
    obtain ⟨e, he, het⟩ := set_market_lookup t sl s
    have he' : dlookup sl ({ set_market t sl s with need_resubscribe := false} : ClobState).markets
        = some e := he
    have hneq : ¬ e.tokens = t' := by rw [het]; exact hne
    rw [set_market_eq_add_of_ne t' sl _ e he' hneq]
    exact ⟨rfl, dlookup_set_market_add t' sl _⟩

/-- Witness for C8 at concrete inputs. -/
theorem set_market_idempotent_witness :
    set_market ["A", "B"] "m" (set_market ["A", "B"] "m" init_state)
      = set_market ["A", "B"] "m" init_state ∧
    (["A", "B"] ≠ ["C", "D"] ∧
      (set_market ["C", "D"] "m"
        { set_market ["A", "B"] "m" init_state with need_resubscribe := false }).need_resubscribe
        = true) :=
  ⟨set_market_idempotent.1 ["A", "B"] "m" init_state,
   by decide,
   (set_market_idempotent.2 ["A", "B"] ["C", "D"] "m" init_state (by decide)).1⟩

/-- Counterexample to C9 as stated: `set_market` with an already
registered slug but a different token list does not clean the replaced
entry's tokens out of `token_to_slug`, so a stale reverse-index entry
survives the replacement. -/
theorem token_to_slug_stale :
    ¬ Inv (set_market ["B"] "s" (set_market ["A"] "s" init_state)) := by
  intro h
  obtain ⟨e, he, hmem⟩ := (h "A" "s").mp (by decide)
  have he2 : dlookup "s" (set_market ["B"] "s" (set_market ["A"] "s" init_state)).markets
      = some (fresh_entry ["B"]) := by decide
  rw [he2] at he
  have hee : fresh_entry ["B"] = e := Option.some.inj he
  rw [← hee] at hmem
  exact absurd hmem (by decide)

theorem invfull_apply_op (s : ClobState) (op : RegistryOp)
    (hinv : InvFull s) (hgood : GoodOp s op) : InvFull (apply_op s op) := by
  obtain ⟨hm, ht, hi⟩ := hinv
  cases op with
  | set t sl =>
    rcases hgood with ⟨hnone, hfresh⟩ | ⟨e, he, het⟩
    · rw [show apply_op s (.set t sl) = set_market t sl s from rfl,
          set_market_eq_add_of_none t sl s hnone]
      refine ⟨keys_dinsert_nodup sl (fresh_entry t) s.markets hm,
              keys_foldl_dinsert_nodup sl t s.token_to_slug ht, ?_⟩
      intro x slug'
      show dlookup x (t.foldl (fun acc tid => dinsert tid sl acc) s.token_to_slug)
            = some slug' ↔
          ∃ e, dlookup slug' (dinsert sl (fresh_entry t) s.markets) = some e ∧ x ∈ e.tokens
      rw [dlookup_foldl_dinsert, dlookup_dinsert]
      by_cases hx : x ∈ t
      · rw [if_pos hx]
        constructor
        · intro hsome
          have hslug : sl = slug' := Option.some.inj hsome
          subst hslug
          exact ⟨fresh_entry t, if_pos rfl, hx⟩
        · rintro ⟨e', he', hx'⟩
          by_cases hss : slug' = sl
          · rw [hss]
          · rw [if_neg hss] at he'
            have hok := (hi x slug').mpr ⟨e', he', hx'⟩
            rw [hfresh x hx] at hok
            exact Option.noConfusion hok
      · rw [if_neg hx]
        rw [hi x slug']
        constructor
        · rintro ⟨e', he', hx'⟩
          have hss : ¬ slug' = sl := by
            intro hss
            rw [hss, hnone] at he'
            exact Option.noConfusion he'
          exact ⟨e', by rw [if_neg hss]; exact he', hx'⟩
        · rintro ⟨e', he', hx'⟩
          by_cases hss : slug' = sl
          · rw [if_pos hss] at he'
            have hee : fresh_entry t = e' := Option.some.inj he'
            rw [← hee] at hx'
            exact absurd hx' hx
          · rw [if_neg hss] at he'
            exact ⟨e', he', hx'⟩
    · rw [show apply_op s (.set t sl) = set_market t sl s from rfl,
          set_market_eq_noop t sl s e he het]
      exact ⟨hm, ht, hi⟩
  | remove sl =>
    cases h : dlookup sl s.markets with
    | none =>
      have heq : remove_market sl s = s := by
        unfold remove_market
        rw [h]
      rw [show apply_op s (.remove sl) = remove_market sl s from rfl, heq]
      exact ⟨hm, ht, hi⟩
    | some entry =>
      have heq : remove_market sl s =
          ⟨derase sl s.markets,
           entry.tokens.foldl (fun acc tid => derase tid acc) s.token_to_slug, true⟩ := by
        unfold remove_market
        rw [h]
      rw [show apply_op s (.remove sl) = remove_market sl s from rfl, heq]
      refine ⟨keys_derase_nodup sl s.markets hm,
              keys_foldl_derase_nodup entry.tokens s.token_to_slug ht, ?_⟩
      intro x slug'
      show dlookup x (entry.tokens.foldl (fun acc tid => derase tid acc) s.token_to_slug)
            = some slug' ↔
          ∃ e, dlookup slug' (derase sl s.markets) = some e ∧ x ∈ e.tokens
      rw [dlookup_foldl_derase entry.tokens x s.token_to_slug ht,
          dlookup_derase sl slug' s.markets hm]
      by_cases hx : x ∈ entry.tokens
      · rw [if_pos hx]
        constructor
        · intro hc
          exact Option.noConfusion hc
        · rintro ⟨e', he', hx'⟩
          by_cases hss : slug' = sl
          · rw [if_pos hss] at he'
            exact Option.noConfusion he'
          · rw [if_neg hss] at he'
            have h1 := (hi x slug').mpr ⟨e', he', hx'⟩
            have h2 := (hi x sl).mpr ⟨entry, h, hx⟩
            rw [h1] at h2
            exact (hss (Option.some.inj h2)).elim
      · rw [if_neg hx]
        rw [hi x slug']
        constructor
        · rintro ⟨e', he', hx'⟩
          have hss : ¬ slug' = sl := by
            intro hss
            rw [hss, h] at he'
            have hee : entry = e' := Option.some.inj he'
            rw [← hee] at hx'
            exact hx hx'
          exact ⟨e', by rw [if_neg hss]; exact he', hx'⟩
        · rintro ⟨e', he', hx'⟩
          by_cases hss : slug' = sl
          · rw [if_pos hss] at he'
            exact Option.noConfusion he'
          · rw [if_neg hss] at he'
            exact ⟨e', he', hx'⟩

theorem invfull_init : InvFull init_state := by
  refine ⟨List.nodup_nil, List.nodup_nil, ?_⟩
  intro t sl
  constructor
  · intro hc
    exact Option.noConfusion hc
  · rintro ⟨e, he, _⟩
    exact Option.noConfusion he

/-- C9 amended: after any sequence of `set_market`/`remove_market` calls
starting from the empty registry in which every `set_market` call either
repeats a registered slug's exact token list or registers a fresh slug
with tokens not currently in the reverse index, `token_to_slug` maps a
token `t` to a slug `sl` exactly when `sl` is registered and `t` is in
its current token list. (Unrestricted `set_market` replacement with a
different token list leaves stale reverse-index entries, refuting the
claim as stated.) -/
theorem registry_reverse_index_inv (ops : List RegistryOp)
    (h : GoodSeq init_state ops) : Inv (apply_ops init_state ops) := by
  suffices haux : ∀ (ops : List RegistryOp) (s : ClobState),
      InvFull s → GoodSeq s ops → InvFull (apply_ops s ops) from
    (haux ops init_state invfull_init h).2.2
  intro ops
  induction ops with
  | nil =>
    intro s hs _
    exact hs
  | cons op rest ih =>
    intro s hs hg
    exact ih (apply_op s op) (invfull_apply_op s op hs hg.1) hg.2

/-- Witness for C9's amended theorem: a benign add / duplicate add /
remove sequence. -/
theorem registry_reverse_index_inv_witness :
    Inv (apply_ops init_state
      [RegistryOp.set ["A"] "m1", RegistryOp.set ["A"] "m1", RegistryOp.remove "m1"]) :=
  registry_reverse_index_inv
    [RegistryOp.set ["A"] "m1", RegistryOp.set ["A"] "m1", RegistryOp.remove "m1"]
    ⟨Or.inl ⟨rfl, fun _ _ => rfl⟩,
     Or.inr ⟨fresh_entry ["A"], by decide, rfl⟩,
     trivial, trivial⟩

/-! ### Market discovery theorems -/

theorem mem_upcoming_markets (now : ℚ) (events : List GEvent) (t : ℚ) (ev : GEvent) :
    (t, ev) ∈ upcoming_markets now events ↔
      ev ∈ events ∧ ev.endDate = some t ∧ now + MIN_BUFFER_SECONDS < t := by
  unfold upcoming_markets
  rw [List.mem_filter, List.mem_filterMap]
  constructor
  · rintro ⟨⟨ev', hev', hmap⟩, hlt⟩
    rcases hd : ev'.endDate with _ | u
    · rw [hd] at hmap
      exact Option.noConfusion hmap
    · rw [hd] at hmap
      have hmap2 : (u, ev') = (t, ev) := Option.some.inj hmap
      have h1 : u = t := congrArg Prod.fst hmap2
      have h2 : ev' = ev := congrArg Prod.snd hmap2
      rw [h1] at hd
      rw [h2] at hev' hd
      refine ⟨hev', hd, ?_⟩
      simpa using hlt
  · rintro ⟨hev, hd, hlt⟩
    refine ⟨⟨ev, hev, ?_⟩, by simpa using hlt⟩
    rw [hd]
    rfl

/-- C6: schedule-based discovery selects the earliest-expiring candidate
among those whose expiry lies strictly more than 10 seconds past `now`;
a candidate expiring only 5 seconds in the future is never the selected
one; and when no candidate's expiry clears the buffer, nothing is
selected. -/
theorem select_current_market_spec (now : ℚ) (events : List GEvent) :
    (∀ t ev, select_current_market now events = some (t, ev) →
      ev ∈ events ∧ ev.endDate = some t ∧ now + 10 < t ∧
      ∀ ev' ∈ events, ∀ t', ev'.endDate = some t' → now + 10 < t' → t ≤ t') ∧
    (∀ t ev, select_current_market now events = some (t, ev) → t ≠ now + 5) ∧
    ((∀ ev ∈ events, ∀ t', ev.endDate = some t' → t' ≤ now + 10) →
      select_current_market now events = none) := by
  refine ⟨?_, ?_, ?_⟩
  · intro t ev hsel
    have hmem : (t, ev) ∈ (upcoming_markets now events).argmin (fun p => p.1) := by
      rw [Option.mem_def]
      exact hsel
    have hup : (t, ev) ∈ upcoming_markets now events := List.argmin_mem hmem
    obtain ⟨hev, hd, hlt⟩ := (mem_upcoming_markets now events t ev).mp hup
    refine ⟨hev, hd, hlt, ?_⟩
    intro ev' hev' t' hd' hlt'
    have hup' : (t', ev') ∈ upcoming_markets now events :=
      (mem_upcoming_markets now events t' ev').mpr ⟨hev', hd', hlt'⟩
    exact List.le_of_mem_argmin hup' hmem
  · intro t ev hsel
    have hmem : (t, ev) ∈ (upcoming_markets now events).argmin (fun p => p.1) := by
      rw [Option.mem_def]
      exact hsel
    have hup : (t, ev) ∈ upcoming_markets now events := List.argmin_mem hmem
    obtain ⟨_, _, hlt⟩ := (mem_upcoming_markets now events t ev).mp hup
    intro heq
    rw [heq] at hlt
    have : ¬ (now + (10 : ℚ) < now + 5) := by norm_num
    exact this hlt
  · intro hall
    unfold select_current_market
    rw [List.argmin_eq_none]
    rcases hne : upcoming_markets now events with _ | ⟨⟨t, ev⟩, rest⟩
    · rfl
    · exfalso
      have hup : (t, ev) ∈ upcoming_markets now events := by
        rw [hne]
        exact List.mem_cons_self _ _
      obtain ⟨hev, hd, hlt⟩ := (mem_upcoming_markets now events t ev).mp hup
      have := hall ev hev t hd
      have hnot : ¬ (now + MIN_BUFFER_SECONDS < t) := by
        rw [show MIN_BUFFER_SECONDS = (10 : ℚ) from rfl]
        exact not_lt.mpr this
      exact hnot hlt

/-- Witness for C6 at a concrete schedule: candidates expiring at
now+5, now+30 and now+20 (and one without a date); the now+20 one is
selected, the now+5 one is not, and with only the now+5 candidate
nothing is selected. -/
theorem select_current_market_spec_witness :
    (⟨2, some 120⟩ : GEvent) ∈ [(⟨0, some 105⟩ : GEvent), ⟨1, some 130⟩, ⟨2, some 120⟩, ⟨3, none⟩] ∧
    (120 : ℚ) ≠ 100 + 5 ∧
    select_current_market 100 [(⟨0, some 105⟩ : GEvent), ⟨1, none⟩] = none := by
  have h := select_current_market_spec 100
    [(⟨0, some 105⟩ : GEvent), ⟨1, some 130⟩, ⟨2, some 120⟩, ⟨3, none⟩]
  have hsel : select_current_market 100
      [(⟨0, some 105⟩ : GEvent), ⟨1, some 130⟩, ⟨2, some 120⟩, ⟨3, none⟩]
      = some (120, ⟨2, some 120⟩) := by
    norm_num [select_current_market, upcoming_markets, List.argmin, List.argAux,
      List.filterMap_cons, List.filter_cons, List.foldl_cons, MIN_BUFFER_SECONDS]
  refine ⟨(h.1 120 ⟨2, some 120⟩ hsel).1, h.2.1 120 ⟨2, some 120⟩ hsel, ?_⟩
  refine (select_current_market_spec 100 [(⟨0, some 105⟩ : GEvent), ⟨1, none⟩]).2.2 ?_
  intro ev hev t' hd'
  fin_cases hev
  · rw [Option.some.injEq] at hd'
    rw [← hd']
    norm_num
  · exact Option.noConfusion hd'

/-- C7: with at least two outcome labels and at least two tokens, a
first outcome label that lower-cases to "no", "below" or "down" makes
the registered token list the reversed leading pair, and any other
first label leaves the token list in discovered order. -/
theorem canonicalize_tokens_spec {α : Type} (o o2 : String) (os : List String)
    (t0 t1 : α) (ts : List α) :
    (py_lower o ∈ negative_labels →
      canonicalize_tokens (o :: o2 :: os) (t0 :: t1 :: ts) = [t1, t0]) ∧
    (py_lower o ∉ negative_labels →
      canonicalize_tokens (o :: o2 :: os) (t0 :: t1 :: ts) = t0 :: t1 :: ts) := by
  constructor
  · intro h
    simp [canonicalize_tokens, h]
  · intro h
    simp [canonicalize_tokens, h]

/-- Witness for C7: outcomes ["No","Yes"] with tokens [X,Y] register as
[Y,X]; outcomes ["Up","Down"] leave them as [X,Y]. -/
theorem canonicalize_tokens_spec_witness :
    canonicalize_tokens ["No", "Yes"] ["X", "Y"] = ["Y", "X"] ∧
    canonicalize_tokens ["Up", "Down"] ["X", "Y"] = ["X", "Y"] :=
  ⟨(canonicalize_tokens_spec "No" "Yes" [] "X" "Y" []).1 (by decide),
   (canonicalize_tokens_spec "Up" "Down" [] "X" "Y" []).2 (by decide)⟩

/-! ### Snapshot sampling theorems -/

/-- C10: with a tracked market, a snapshot is assembled even before any
combined quote update arrives; each of the six quote fields equals the
last combined update's value when that side is present and `0` (not
null) when it is absent. -/
theorem record_snapshot_fields (s : RecorderState) (sl : String)
    (h : s.current_slug = some sl) :
    ((record_snapshot s).isSome = true) ∧
    (s.up_prices = none → s.down_prices = none →
      record_snapshot s = some ⟨0, 0, 0, 0, 0, 0⟩) ∧
    (∀ u d, record_snapshot (on_clob_update sl (some u) (some d) s)
      = some ⟨u.bid, u.ask, u.mid, d.bid, d.ask, d.mid⟩) ∧
    (∀ u, record_snapshot (on_clob_update sl (some u) none s)
      = some ⟨u.bid, u.ask, u.mid, 0, 0, 0⟩) ∧
    (∀ d, record_snapshot (on_clob_update sl none (some d) s)
      = some ⟨0, 0, 0, d.bid, d.ask, d.mid⟩) := by
  refine ⟨?_, ?_, ?_, ?_, ?_⟩
  · simp [record_snapshot, h]
  · intro hu hd
    simp [record_snapshot, h, hu, hd]
  · intro u d
    simp [record_snapshot, on_clob_update, h]
  · intro u
    simp [record_snapshot, on_clob_update, h]
  · intro d
    simp [record_snapshot, on_clob_update, h]

/-! ### Event parsing theorems -/

theorem sorted_le_getLast (l : List ℚ) (y : ℚ)
    (hs : l.Sorted (· ≤ ·)) (hl : l.getLast? = some y) : ∀ x ∈ l, x ≤ y := by
  induction l with
  | nil => exact Option.noConfusion hl
  | cons a l ih =>
    rw [List.sorted_cons] at hs
    intro x hx
    cases l with
    | nil =>
      have hy : a = y := Option.some.inj hl
      rcases List.mem_singleton.mp hx with rfl
      exact le_of_eq hy
    | cons b l' =>
      rw [List.getLast?_cons_cons] at hl
      rcases List.mem_cons.mp hx with rfl | hx'
      · have hy : y ∈ b :: l' := List.mem_of_getLast?_eq_some hl
        exact hs.1 y hy
      · exact ih hs.2 hl x hx'

theorem sorted_ge_getLast (l : List ℚ) (y : ℚ)
    (hs : l.Sorted (· ≥ ·)) (hl : l.getLast? = some y) : ∀ x ∈ l, y ≤ x := by
  induction l with
  | nil => exact Option.noConfusion hl
  | cons a l ih =>
    rw [List.sorted_cons] at hs
    intro x hx
    cases l with
    | nil =>
      have hy : a = y := Option.some.inj hl
      rcases List.mem_singleton.mp hx with rfl
      exact ge_of_eq hy
    | cons b l' =>
      rw [List.getLast?_cons_cons] at hl
      rcases List.mem_cons.mp hx with rfl | hx'
      · have hy : y ∈ b :: l' := List.mem_of_getLast?_eq_some hl
        exact hs.1 y hy
      · exact ih hs.2 hl x hx'

theorem parse_step1_bba (side : Side) (e : RawEvent) (m : MarketEntry)
    (hc1 : (e.best_bid.isSome || e.best_ask.isSome) = true)
    (hc2 : ((e.best_bid.join).isSome || (e.best_ask.join).isSome) = true) :
    parse_step1 side e m = (set_side side e.best_bid.join e.best_ask.join m, true) := by
  unfold parse_step1
  rw [hc1, hc2]
  rfl

theorem parse_step1_bba_falsy (side : Side) (e : RawEvent) (m : MarketEntry)
    (hc1 : (e.best_bid.isSome || e.best_ask.isSome) = true)
    (hjb : e.best_bid.join = none) (hja : e.best_ask.join = none) :
    parse_step1 side e m = (m, false) := by
  unfold parse_step1
  rw [hc1, hjb, hja]
  rfl

theorem parse_step1_price (side : Side) (e : RawEvent) (m : MarketEntry)
    (hb : e.best_bid = none) (ha : e.best_ask = none)
    (p : ℚ) (hp : e.price = some p) (hpos : 0 < p) :
    parse_step1 side e m = (set_side side (some p) (some p) m, true) := by
  unfold parse_step1
  rw [hb, ha, hp]
  simp only [Option.getD_some]
  rw [if_pos hpos]
  rfl

theorem parse_step1_ltp (side : Side) (e : RawEvent) (m : MarketEntry)
    (hb : e.best_bid = none) (ha : e.best_ask = none) (hp : e.price = none)
    (p : ℚ) (hl : e.last_trade_price = some p) (hpos : 0 < p) :
    parse_step1 side e m = (set_side side (some p) (some p) m, true) := by
  unfold parse_step1
  rw [hb, ha, hp, hl]
  simp only [Option.getD_some]
  rw [if_pos hpos]
  rfl

theorem parse_step1_nothing (side : Side) (e : RawEvent) (m : MarketEntry)
    (hb : e.best_bid = none) (ha : e.best_ask = none) (hp : e.price = none)
    (hl : e.last_trade_price = none) :
    parse_step1 side e m = (m, false) := by
  unfold parse_step1
  rw [hb, ha, hp, hl]
  rfl

theorem parse_market_data_of_updated (side : Side) (e : RawEvent) (m : MarketEntry)
    (h2 : (parse_step1 side e m).2 = true) :
    parse_market_data side e m = parse_step1 side e m := by
  unfold parse_market_data
  rw [h2]
  rfl

theorem parse_market_data_of_no_book (side : Side) (e : RawEvent) (m : MarketEntry)
    (hbids : e.bids = none) :
    parse_market_data side e m = parse_step1 side e m := by
  unfold parse_market_data
  rw [hbids, show (none : Option (List ℚ)).isSome = false from rfl, Bool.false_and,
    Bool.and_false]
  rfl

theorem parse_market_data_book (side : Side) (e : RawEvent) (m : MarketEntry)
    (h1 : parse_step1 side e m = (m, false))
    (bl al : List ℚ) (hbl : e.bids = some bl) (hal : e.asks = some al) :
    parse_market_data side e m =
      (if (truthy_float bl.getLast?).isSome || (truthy_float al.getLast?).isSome then
        (set_side side (truthy_float bl.getLast?) (truthy_float al.getLast?) m, true)
      else (m, false)) := by
  unfold parse_market_data
  rw [h1, hbl, hal]
  rfl

theorem shape_best_bid_ask_false_elim (e : RawEvent)
    (h1 : shape_best_bid_ask e = false) : e.best_bid = none ∧ e.best_ask = none := by
  rw [shape_best_bid_ask, Bool.or_eq_false_iff] at h1
  constructor
  · rcases hb : e.best_bid with _ | v
    · rfl
    · rw [hb] at h1
      exact absurd h1.1 (by simp)
  · rcases hb : e.best_ask with _ | v
    · rfl
    · rw [hb] at h1
      exact absurd h1.2 (by simp)

/-- Counterexample to C3 as stated: an event that matches the
best-bid/best-ask shape (the `best_bid` key is present) but whose
best-bid/best-ask values are all falsy, and which also carries `bids`
and `asks`, falls through to the order-book interpretation — the stored
quote picks up the book's levels even though under the claimed
first-match-wins semantics the best-bid/best-ask interpretation (which
writes nothing here) should have been the one applied. -/
theorem parse_priority_fallthrough :
    shape_best_bid_ask ⟨some none, some none, none, none, some [2], some [3]⟩ = true ∧
    parse_market_data Side.up ⟨some none, some none, none, none, some [2], some [3]⟩
        (fresh_entry ["X", "Y"])
      = ({ fresh_entry ["X", "Y"] with up_bid := some 2, up_ask := some 3 }, true) := by
  constructor
  · rfl
  · have h1 : parse_step1 Side.up ⟨some none, some none, none, none, some [2], some [3]⟩
        (fresh_entry ["X", "Y"]) = (fresh_entry ["X", "Y"], false) :=
      parse_step1_bba_falsy _ _ _ rfl rfl rfl
    rw [parse_market_data_book Side.up _ _ h1 [2] [3] rfl rfl]
    norm_num [truthy_float, set_side, merge_field, fresh_entry]

/-- C3 amended: event interpretations are tried in the priority order
best-bid/ask, price-changed, last-trade, order-book, first *shape*
match winning among the first three; a best-bid/ask-shaped event with at
least one truthy value, or a positive-priced price-changed /
last-trade event, is applied and never falls through to the order-book
interpretation; an event matching none of the first three shapes and
carrying both book keys is interpreted as an order book, taking the
last (under ascending sorted book ordering: highest) bid level and the
last (under descending sorted ordering: lowest) ask level.  (A
higher-priority-shaped event whose values are all falsy or non-positive
updates nothing and does fall through to the order-book interpretation
when it also carries both book keys.) -/
theorem parse_market_data_priority (side : Side) (e : RawEvent) (m : MarketEntry) :
    (shape_best_bid_ask e = true →
      ((e.best_bid.join).isSome = true ∨ (e.best_ask.join).isSome = true) →
      parse_market_data side e m = (set_side side e.best_bid.join e.best_ask.join m, true)) ∧
    (shape_best_bid_ask e = false → ∀ p, e.price = some p → 0 < p →
      parse_market_data side e m = (set_side side (some p) (some p) m, true)) ∧
    (shape_best_bid_ask e = false → e.price = none →
      ∀ p, e.last_trade_price = some p → 0 < p →
      parse_market_data side e m = (set_side side (some p) (some p) m, true)) ∧
    (shape_best_bid_ask e = false → e.price = none → e.last_trade_price = none →
      ∀ bl al, e.bids = some bl → e.asks = some al →
      parse_market_data side e m =
        (if (truthy_float bl.getLast?).isSome || (truthy_float al.getLast?).isSome then
          (set_side side (truthy_float bl.getLast?) (truthy_float al.getLast?) m, true)
        else (m, false))) ∧
    (∀ (bl : List ℚ) (y : ℚ), bl.Sorted (· ≤ ·) → bl.getLast? = some y → ∀ x ∈ bl, x ≤ y) ∧
    (∀ (al : List ℚ) (y : ℚ), al.Sorted (· ≥ ·) → al.getLast? = some y → ∀ x ∈ al, y ≤ x) := by
  refine ⟨?_, ?_, ?_, ?_, sorted_le_getLast, sorted_ge_getLast⟩
  · intro h1 h2
    have hc2 : ((e.best_bid.join).isSome || (e.best_ask.join).isSome) = true := by
      rcases h2 with h | h
      · rw [h, Bool.true_or]
      · rw [h, Bool.or_true]
    have hs := parse_step1_bba side e m h1 hc2
    have h2' : (parse_step1 side e m).2 = true := by rw [hs]
    rw [parse_market_data_of_updated side e m h2', hs]
  · intro h1 p hp hpos
    obtain ⟨hb, ha⟩ := shape_best_bid_ask_false_elim e h1
    have hs := parse_step1_price side e m hb ha p hp hpos
    have h2' : (parse_step1 side e m).2 = true := by rw [hs]
    rw [parse_market_data_of_updated side e m h2', hs]
  · intro h1 hp p hl hpos
    obtain ⟨hb, ha⟩ := shape_best_bid_ask_false_elim e h1
    have hs := parse_step1_ltp side e m hb ha hp p hl hpos
    have h2' : (parse_step1 side e m).2 = true := by rw [hs]
    rw [parse_market_data_of_updated side e m h2', hs]
  · intro h1 hp hl bl al hbl hal
    obtain ⟨hb, ha⟩ := shape_best_bid_ask_false_elim e h1
    exact parse_market_data_book side e m (parse_step1_nothing side e m hb ha hp hl)
      bl al hbl hal

/-- Witness for C3's amended theorem: a positive price-changed event
that also carries book keys is applied zero-spread and does not fall
through. -/
theorem parse_market_data_priority_witness :
    parse_market_data Side.up ⟨none, none, some 7, none, some [2], some [3]⟩
        (fresh_entry ["X", "Y"])
      = (set_side Side.up (some 7) (some 7) (fresh_entry ["X", "Y"]), true) :=
  (parse_market_data_priority Side.up ⟨none, none, some 7, none, some [2], some [3]⟩
      (fresh_entry ["X", "Y"])).2.1 rfl 7 rfl (by norm_num)

theorem last_write_toList_append (v : Option ℚ) (updates : List ℚ) (old : Option ℚ) :
    last_write (v.toList ++ updates) old = last_write updates (merge_field v old) := by
  cases v with
  | none => rfl
  | some b =>
    cases updates with
    | nil => rfl
    | cons u us =>
      show last_write (b :: u :: us) old = last_write (u :: us) (some b)
      unfold last_write
      rw [List.getLast?_cons_cons]
      rcases h' : (u :: us).getLast? with _ | v
      · have hmem : (u :: us).getLast (List.cons_ne_nil u us) ∈ (u :: us).getLast? :=
          List.getLast_mem_getLast? (List.cons_ne_nil u us)
        rw [h'] at hmem
        exact absurd hmem (by simp)
      · rfl

theorem bid_of_set_side (side : Side) (b a : Option ℚ) (m : MarketEntry) :
    bid_of side (set_side side b a m) = merge_field b (bid_of side m) := by
  cases side <;> rfl

theorem ask_of_set_side (side : Side) (b a : Option ℚ) (m : MarketEntry) :
    ask_of side (set_side side b a m) = merge_field a (ask_of side m) := by
  cases side <;> rfl

theorem bid_of_other_set_side (side : Side) (b a : Option ℚ) (m : MarketEntry) :
    bid_of side.other (set_side side b a m) = bid_of side.other m := by
  cases side <;> rfl

theorem ask_of_other_set_side (side : Side) (b a : Option ℚ) (m : MarketEntry) :
    ask_of side.other (set_side side b a m) = ask_of side.other m := by
  cases side <;> rfl

theorem parse_bba_step (side : Side) (e : RawEvent) (m : MarketEntry)
    (hshape : shape_best_bid_ask e = true) (hbids : e.bids = none) :
    (parse_market_data side e m).1 = set_side side e.best_bid.join e.best_ask.join m ∨
    ((parse_market_data side e m).1 = m ∧ e.best_bid.join = none ∧ e.best_ask.join = none) := by
  have hc1 : (e.best_bid.isSome || e.best_ask.isSome) = true := hshape
  rcases hjb : e.best_bid.join with _ | vb
  · rcases hja : e.best_ask.join with _ | va
    · right
      refine ⟨?_, rfl, rfl⟩
      rw [parse_market_data_of_no_book side e m hbids,
        parse_step1_bba_falsy side e m hc1 hjb hja]
    · left
      have hc2 : ((e.best_bid.join).isSome || (e.best_ask.join).isSome) = true := by
        rw [hjb, hja]
        rfl
      have hs := parse_step1_bba side e m hc1 hc2
      have h2' : (parse_step1 side e m).2 = true := by rw [hs]
      rw [parse_market_data_of_updated side e m h2', hs, hjb, hja]
  · left
    have hc2 : ((e.best_bid.join).isSome || (e.best_ask.join).isSome) = true := by
      rw [hjb]
      rfl
    have hs := parse_step1_bba side e m hc1 hc2
    have h2' : (parse_step1 side e m).2 = true := by rw [hs]
    rw [parse_market_data_of_updated side e m h2', hs, hjb]

/-- C4: over any sequence of best-bid/best-ask events for one side, the
stored quote ends with the bid of the last event that carried a (truthy)
bid and the ask of the last event that carried a (truthy) ask, each
falling back to the initial stored value when no event carried that
field; the opposite side's stored quote is untouched. -/
theorem best_bid_ask_last_write_wins (side : Side) (es : List RawEvent) (m0 : MarketEntry)
    (h : ∀ e ∈ es, shape_best_bid_ask e = true ∧ e.bids = none) :
    bid_of side (apply_events side es m0)
      = last_write (es.filterMap (fun e => e.best_bid.join)) (bid_of side m0) ∧
    ask_of side (apply_events side es m0)
      = last_write (es.filterMap (fun e => e.best_ask.join)) (ask_of side m0) ∧
    bid_of side.other (apply_events side es m0) = bid_of side.other m0 ∧
    ask_of side.other (apply_events side es m0) = ask_of side.other m0 := by
  induction es generalizing m0 with
  | nil => exact ⟨rfl, rfl, rfl, rfl⟩
  | cons e es ih =>
    obtain ⟨hshape, hbids⟩ := h e (List.mem_cons_self e es)
    have hrest : ∀ e' ∈ es, shape_best_bid_ask e' = true ∧ e'.bids = none :=
      fun e' he' => h e' (List.mem_cons_of_mem e he')
    have happ : apply_events side (e :: es) m0
        = apply_events side es ((parse_market_data side e m0).1) := rfl
    have hfm : ∀ (f : RawEvent → Option ℚ),
        (e :: es).filterMap f = (f e).toList ++ es.filterMap f := by
      intro f
      rw [List.filterMap_cons]
      cases hf : f e
      · rfl
      · rfl
    rcases parse_bba_step side e m0 hshape hbids with hstep | ⟨hstep, hjb, hja⟩
    · obtain ⟨ih1, ih2, ih3, ih4⟩ := ih ((parse_market_data side e m0).1) hrest
      rw [happ]
      refine ⟨?_, ?_, ?_, ?_⟩
      · rw [ih1, hstep, bid_of_set_side, hfm, last_write_toList_append]
      · rw [ih2, hstep, ask_of_set_side, hfm, last_write_toList_append]
      · rw [ih3, hstep, bid_of_other_set_side]
      · rw [ih4, hstep, ask_of_other_set_side]
    · obtain ⟨ih1, ih2, ih3, ih4⟩ := ih ((parse_market_data side e m0).1) hrest
      rw [happ]
      refine ⟨?_, ?_, ?_, ?_⟩
      · rw [ih1, hstep, hfm, hjb]
        rfl
      · rw [ih2, hstep, hfm, hja]
        rfl
      · rw [ih3, hstep]
      · rw [ih4, hstep]

/-- Witness for C4: a full update then a bid-only update; the stored
quote keeps the second bid and the first ask. -/
theorem best_bid_ask_last_write_wins_witness :
    (bid_of Side.up (apply_events Side.up
        [⟨some (some 3), some (some 4), none, none, none, none⟩,
         ⟨some (some 5), some none, none, none, none, none⟩] (fresh_entry ["X", "Y"]))
      = last_write ([⟨some (some 3), some (some 4), none, none, none, none⟩,
         (⟨some (some 5), some none, none, none, none, none⟩ : RawEvent)].filterMap
           (fun e => e.best_bid.join)) (bid_of Side.up (fresh_entry ["X", "Y"]))) ∧
    last_write ([⟨some (some 3), some (some 4), none, none, none, none⟩,
         (⟨some (some 5), some none, none, none, none, none⟩ : RawEvent)].filterMap
           (fun e => e.best_bid.join)) (bid_of Side.up (fresh_entry ["X", "Y"])) = some 5 ∧
    last_write ([⟨some (some 3), some (some 4), none, none, none, none⟩,
         (⟨some (some 5), some none, none, none, none, none⟩ : RawEvent)].filterMap
           (fun e => e.best_ask.join)) (ask_of Side.up (fresh_entry ["X", "Y"])) = some 4 :=
  ⟨(best_bid_ask_last_write_wins Side.up
      [⟨some (some 3), some (some 4), none, none, none, none⟩,
       ⟨some (some 5), some none, none, none, none, none⟩] (fresh_entry ["X", "Y"])
      (by
        intro e he
        fin_cases he
        · exact ⟨rfl, rfl⟩
        · exact ⟨rfl, rfl⟩)).1,
   by simp [last_write, List.filterMap_cons],
   by simp [last_write, List.filterMap_cons]⟩

/-- Witness for C10: tracked market with no update yet gives an
all-zero snapshot; after an update the snapshot carries its values. -/
theorem record_snapshot_fields_witness :
    record_snapshot ⟨some "m", none, none⟩ = some ⟨0, 0, 0, 0, 0, 0⟩ ∧
    record_snapshot (on_clob_update "m"
        (some ⟨1/2, 3/5, 11/20⟩) (some ⟨2/5, 1/2, 9/20⟩) ⟨some "m", none, none⟩)
      = some ⟨1/2, 3/5, 11/20, 2/5, 1/2, 9/20⟩ :=
  ⟨(record_snapshot_fields ⟨some "m", none, none⟩ "m" rfl).2.1 rfl rfl,
   (record_snapshot_fields ⟨some "m", none, none⟩ "m" rfl).2.2.1
     ⟨1/2, 3/5, 11/20⟩ ⟨2/5, 1/2, 9/20⟩⟩

/-! ### Latency estimation theorems -/

theorem scan_ticks_cons (now oracle b_ts b_price : ℚ) (rest : List (ℚ × ℚ))
    (best min_diff : Option ℚ) :
    scan_ticks now oracle ((b_ts, b_price) :: rest) best min_diff =
      if 10 < now - b_ts then best
      else if |b_price - oracle| < 1/10 then
        (if improves_bool |b_price - oracle| min_diff then some b_ts else best)
      else
        scan_ticks now oracle rest
          (if improves_bool |b_price - oracle| min_diff then some b_ts else best)
          (if improves_bool |b_price - oracle| min_diff then some |b_price - oracle|
            else min_diff) := rfl

theorem scan_ticks_all_stale (now oracle : ℚ) (l : List (ℚ × ℚ)) (min_diff : Option ℚ)
    (h : ∀ p ∈ l, 10 < now - p.1) :
    scan_ticks now oracle l none min_diff = none := by
  cases l with
  | nil => rfl
  | cons p rest =>
    obtain ⟨b_ts, b_price⟩ := p
    unfold scan_ticks
    rw [if_pos (h (b_ts, b_price) (List.mem_cons_self _ _))]

theorem scan_ticks_after (now oracle : ℚ) (l : List (ℚ × ℚ)) (ts md : ℚ)
    (hall : ∀ p ∈ l, now - p.1 ≤ 10 → md ≤ |p.2 - oracle|) :
    scan_ticks now oracle l (some ts) (some md) = some ts := by
  induction l with
  | nil => rfl
  | cons p rest ih =>
    obtain ⟨b_ts, b_price⟩ := p
    by_cases hstale : 10 < now - b_ts
    · unfold scan_ticks
      rw [if_pos hstale]
    · have hwin : now - b_ts ≤ 10 := not_lt.mp hstale
      have hge : md ≤ |b_price - oracle| := hall (b_ts, b_price) (List.mem_cons_self _ _) hwin
      have himp : improves_bool |b_price - oracle| (some md) = false := by
        unfold improves_bool
        exact decide_eq_false (not_lt.mpr hge)
      have ih' := ih (fun p hp hw => hall p (List.mem_cons_of_mem _ hp) hw)
      rw [scan_ticks_cons, if_neg hstale, himp]
      by_cases heps : |b_price - oracle| < 1/10
      · rw [if_pos heps]
        rfl
      · rw [if_neg heps]
        exact ih'

theorem scan_ticks_eps (now oracle ts q : ℚ) :
    ∀ (l : List (ℚ × ℚ)), l.Pairwise (fun a b => b.1 ≤ a.1) →
      (ts, q) ∈ l → now - ts ≤ 10 → |q - oracle| < 1/10 →
      (∀ p ∈ l, now - p.1 ≤ 10 → |p.2 - oracle| < 1/10 → p.1 ≤ ts) →
      ∀ (best min_diff : Option ℚ),
        (min_diff = none ∨ ∃ md, min_diff = some md ∧ 1/10 ≤ md) →
        scan_ticks now oracle l best min_diff = some ts := by
  intro l
  induction l with
  | nil =>
    intro _ hmem
    exact absurd hmem (List.not_mem_nil _)
  | cons p rest ih =>
    intro hdesc hmem hwin heps hlatest best min_diff hinv
    obtain ⟨b_ts, b_price⟩ := p
    rw [List.pairwise_cons] at hdesc
    have hts_le : ts ≤ b_ts := by
      rcases List.mem_cons.mp hmem with heq | hrest
      · exact le_of_eq (congrArg Prod.fst heq)
      · exact hdesc.1 (ts, q) hrest
    have hstale : ¬ (10 < now - b_ts) := by
      intro hcon
      have : (10 : ℚ) < now - ts := by linarith
      linarith
    have hwin1 : now - b_ts ≤ 10 := not_lt.mp hstale
    by_cases heps1 : |b_price - oracle| < 1/10
    · have hle : b_ts ≤ ts := hlatest (b_ts, b_price) (List.mem_cons_self _ _) hwin1 heps1
      have hts : b_ts = ts := le_antisymm hle hts_le
      have himp : improves_bool |b_price - oracle| min_diff = true := by
        rcases hinv with h | ⟨md, hmd, hge⟩
        · rw [h]
          rfl
        · rw [hmd]
          unfold improves_bool
          exact decide_eq_true (lt_of_lt_of_le heps1 hge)
      rw [scan_ticks_cons, if_neg hstale, if_pos heps1, himp, if_pos rfl, hts]
    · have hmem' : (ts, q) ∈ rest := by
        rcases List.mem_cons.mp hmem with heq | hrest
        · exfalso
          apply heps1
          have hq : q = b_price := congrArg Prod.snd heq
          rw [← hq]
          exact heps
        · exact hrest
      have hinv' :
          (if improves_bool |b_price - oracle| min_diff then some |b_price - oracle|
            else min_diff) = none ∨
          ∃ md, (if improves_bool |b_price - oracle| min_diff then some |b_price - oracle|
            else min_diff) = some md ∧ 1/10 ≤ md := by
        cases himp : improves_bool |b_price - oracle| min_diff
        · rw [if_neg Bool.false_ne_true]
          exact hinv
        · rw [if_pos rfl]
          exact Or.inr ⟨|b_price - oracle|, rfl, not_lt.mp heps1⟩
      have ihres := ih hdesc.2 hmem' hwin heps
        (fun p hp hw he => hlatest p (List.mem_cons_of_mem _ hp) hw he)
        (if improves_bool |b_price - oracle| min_diff then some b_ts else best)
        (if improves_bool |b_price - oracle| min_diff then some |b_price - oracle|
          else min_diff) hinv'
      rw [scan_ticks_cons, if_neg hstale, if_neg heps1]
      exact ihres

theorem scan_ticks_argmin (now oracle ts q : ℚ) :
    ∀ (l : List (ℚ × ℚ)), l.Pairwise (fun a b => b.1 ≤ a.1) →
      (∀ p ∈ l, now - p.1 ≤ 10 → ¬(|p.2 - oracle| < 1/10)) →
      (∀ p ∈ l, now - p.1 ≤ 10 →
        |q - oracle| < |p.2 - oracle| ∨ (|q - oracle| = |p.2 - oracle| ∧ p.1 ≤ ts)) →
      ∀ (best min_diff : Option ℚ),
        (((ts, q) ∈ l ∧ now - ts ≤ 10 ∧
            (min_diff = none ∨ ∃ md, min_diff = some md ∧ |q - oracle| < md))
         ∨ (best = some ts ∧ min_diff = some |q - oracle|)) →
        scan_ticks now oracle l best min_diff = some ts := by
  intro l
  induction l with
  | nil =>
    intro _ _ _ best min_diff hstate
    rcases hstate with ⟨hmem, _⟩ | ⟨hbest, _⟩
    · exact absurd hmem (List.not_mem_nil _)
    · rw [hbest]
      rfl
  | cons p rest ih =>
    intro hdesc hnoeps hmin best min_diff hstate
    obtain ⟨b_ts, b_price⟩ := p
    rw [List.pairwise_cons] at hdesc
    rcases hstate with ⟨hmem, hwin, hinv⟩ | ⟨hbest, hmd⟩
    · -- target not yet absorbed into the accumulator
      have hts_le : ts ≤ b_ts := by
        rcases List.mem_cons.mp hmem with heq | hrest
        · exact le_of_eq (congrArg Prod.fst heq)
        · exact hdesc.1 (ts, q) hrest
      have hstale : ¬ (10 < now - b_ts) := by
        intro hcon
        have : (10 : ℚ) < now - ts := by linarith
        linarith
      have hwin1 : now - b_ts ≤ 10 := not_lt.mp hstale
      have heps1 : ¬ (|b_price - oracle| < 1/10) :=
        hnoeps (b_ts, b_price) (List.mem_cons_self _ _) hwin1
      rcases hmin (b_ts, b_price) (List.mem_cons_self _ _) hwin1 with hlt | ⟨heq, hle⟩
      · -- the head has a strictly larger difference than the target
        have hmem' : (ts, q) ∈ rest := by
          rcases List.mem_cons.mp hmem with heq | hrest
          · exfalso
            have hq : q = b_price := congrArg Prod.snd heq
            rw [hq] at hlt
            exact lt_irrefl _ hlt
          · exact hrest
        have hinv' :
            (if improves_bool |b_price - oracle| min_diff then some |b_price - oracle|
              else min_diff) = none ∨
            ∃ md, (if improves_bool |b_price - oracle| min_diff then some |b_price - oracle|
              else min_diff) = some md ∧ |q - oracle| < md := by
          cases himp : improves_bool |b_price - oracle| min_diff
          · rw [if_neg Bool.false_ne_true]
            exact hinv
          · rw [if_pos rfl]
            exact Or.inr ⟨|b_price - oracle|, rfl, hlt⟩
        have ihres := ih hdesc.2
          (fun p hp hw => hnoeps p (List.mem_cons_of_mem _ hp) hw)
          (fun p hp hw => hmin p (List.mem_cons_of_mem _ hp) hw)
          (if improves_bool |b_price - oracle| min_diff then some b_ts else best)
          (if improves_bool |b_price - oracle| min_diff then some |b_price - oracle|
            else min_diff)
          (Or.inl ⟨hmem', hwin, hinv'⟩)
        rw [scan_ticks_cons, if_neg hstale, if_neg heps1]
        exact ihres
      · -- the head ties the target's difference, so it sits at the target's time
        have hts : b_ts = ts := le_antisymm hle hts_le
        have himp : improves_bool |b_price - oracle| min_diff = true := by
          rcases hinv with h | ⟨md, hmd', hlt'⟩
          · rw [h]
            rfl
          · rw [hmd']
            unfold improves_bool
            rw [← heq]
            exact decide_eq_true hlt'
        have ihres := ih hdesc.2
          (fun p hp hw => hnoeps p (List.mem_cons_of_mem _ hp) hw)
          (fun p hp hw => hmin p (List.mem_cons_of_mem _ hp) hw)
          (some b_ts) (some |b_price - oracle|)
          (Or.inr ⟨by rw [hts], by rw [heq]⟩)
        rw [scan_ticks_cons, if_neg hstale, if_neg heps1, himp, if_pos rfl, if_pos rfl]
        exact ihres
    · -- accumulator already holds the target
      have hall : ∀ p ∈ ((b_ts, b_price) :: rest), now - p.1 ≤ 10 →
          |q - oracle| ≤ |p.2 - oracle| := by
        intro p hp hw
        rcases hmin p hp hw with hlt | ⟨heq, _⟩
        · exact le_of_lt hlt
        · exact le_of_eq heq
      rw [hbest, hmd]
      exact scan_ticks_after now oracle _ ts |q - oracle| hall

/-- C5: on each oracle tick the estimator scans the spot history from
most recent backward, never matches a tick outside the 10-second
window; if some in-window tick's difference is below the 0.1 epsilon it
matches the most recent such tick and stops there; otherwise it matches
the in-window tick minimizing the absolute difference (most recent on
ties); in either case it sets the lag to
`int((now − matched tick time) · 1000)` ms; and when every tick is
older than the window (or the history is empty) the previous estimate
is retained unchanged. -/
theorem on_rtds_update_lag_spec (now oracle : ℚ) (hist : List (ℚ × ℚ)) (prev : ℤ)
    (hsort : hist.Pairwise (fun a b => a.1 ≤ b.1)) :
    ((∀ p ∈ hist, 10 < now - p.1) → on_rtds_update_lag now oracle hist prev = prev) ∧
    (∀ ts q, (ts, q) ∈ hist → 0 < ts → now - ts ≤ 10 → |q - oracle| < 1/10 →
      (∀ p ∈ hist, now - p.1 ≤ 10 → |p.2 - oracle| < 1/10 → p.1 ≤ ts) →
      on_rtds_update_lag now oracle hist prev = pyint ((now - ts) * 1000)) ∧
    ((∀ p ∈ hist, now - p.1 ≤ 10 → ¬(|p.2 - oracle| < 1/10)) →
      ∀ ts q, (ts, q) ∈ hist → 0 < ts → now - ts ≤ 10 →
      (∀ p ∈ hist, now - p.1 ≤ 10 →
        |q - oracle| < |p.2 - oracle| ∨ (|q - oracle| = |p.2 - oracle| ∧ p.1 ≤ ts)) →
      on_rtds_update_lag now oracle hist prev = pyint ((now - ts) * 1000)) := by
  have hdesc : hist.reverse.Pairwise (fun a b => b.1 ≤ a.1) :=
    List.pairwise_reverse.mpr hsort
  refine ⟨?_, ?_, ?_⟩
  · intro hall
    by_cases hnil : hist = []
    · unfold on_rtds_update_lag
      rw [if_pos hnil]
    · unfold on_rtds_update_lag
      rw [if_neg hnil,
        scan_ticks_all_stale now oracle hist.reverse none
          (fun p hp => hall p (List.mem_reverse.mp hp))]
  · intro ts q hmem hpos hwin heps hlatest
    have hnil : ¬ hist = [] := by
      intro hcon
      rw [hcon] at hmem
      exact absurd hmem (List.not_mem_nil _)
    have hscan := scan_ticks_eps now oracle ts q hist.reverse hdesc
      (List.mem_reverse.mpr hmem) hwin heps
      (fun p hp hw he => hlatest p (List.mem_reverse.mp hp) hw he)
      none none (Or.inl rfl)
    unfold on_rtds_update_lag
    rw [if_neg hnil, hscan]
    show (if ts = 0 then prev else pyint ((now - ts) * 1000)) = pyint ((now - ts) * 1000)
    rw [if_neg (by intro hcon; rw [hcon] at hpos; exact lt_irrefl 0 hpos)]
  · intro hnoeps ts q hmem hpos hwin hmin
    have hnil : ¬ hist = [] := by
      intro hcon
      rw [hcon] at hmem
      exact absurd hmem (List.not_mem_nil _)
    have hscan := scan_ticks_argmin now oracle ts q hist.reverse hdesc
      (fun p hp hw => hnoeps p (List.mem_reverse.mp hp) hw)
      (fun p hp hw => hmin p (List.mem_reverse.mp hp) hw)
      none none (Or.inl ⟨List.mem_reverse.mpr hmem, hwin, Or.inl rfl⟩)
    unfold on_rtds_update_lag
    rw [if_neg hnil, hscan]
    show (if ts = 0 then prev else pyint ((now - ts) * 1000)) = pyint ((now - ts) * 1000)
    rw [if_neg (by intro hcon; rw [hcon] at hpos; exact lt_irrefl 0 hpos)]

/-- Witness for C5: spot history [(0,100),(1,101),(2,102)] and oracle
tick (t=2.5, 101) give an estimated lag of 1500 ms (matched at t=1). -/
theorem on_rtds_update_lag_spec_witness :
    on_rtds_update_lag (5/2) 101 [(0, 100), (1, 101), (2, 102)] 7 = 1500 := by
  have h := (on_rtds_update_lag_spec (5/2) 101 [(0, 100), (1, 101), (2, 102)] 7
    (by norm_num [List.pairwise_cons])).2.1 1 101
    (List.mem_cons_of_mem _ (List.mem_cons_self _ _))
    (by norm_num) (by norm_num) (by norm_num)
    (by
      intro p hp hw he
      fin_cases hp
      · exfalso
        rw [show |(100 : ℚ) - 101| = 1 by rw [show (100 : ℚ) - 101 = -1 by norm_num]; simp] at he
        norm_num at he
      · norm_num
      · exfalso
        rw [show |(102 : ℚ) - 101| = 1 by norm_num] at he
        norm_num at he)
  rw [h, show ((5 : ℚ)/2 - 1) * 1000 = ((1500 : ℤ) : ℚ) by norm_num]
  unfold pyint
  rw [if_pos (by norm_num), Int.floor_intCast]

end PolyRec
